import Mathlib

/-!
Verification of the relay-selection and feed-assembly core of coracle
(`src/engine/network/utils/feed.ts`).

The development shallowly embeds the two halves of that file:

* relay selection / rank aggregation: `isShareableRelay`, `relayIsLowQuality`,
  `selectHints`, `mergeHints`;
* the `FeedLoader` state machine: `discardEvents`, `buildFeedChunk`,
  `addToFeed`, `load`, `loadBuffer`, `deferOrphans`, `deferAncient`, the
  deferral timers and `stop`, presented as a step function over an explicit
  state together with an operation alphabet.

JavaScript floats are modelled by exact rationals for the score accumulation
(the accumulation is exact in ℚ) and by real numbers for the transcendental
final weight (`Math.log` / `Math.exp` / `Math.log1p` become `Real.log` /
`Real.exp`).  External collaborators (quality oracle, mute predicate, session
relays, settings, the transport cursor) are passed in as parameters, following
the contracts in the specification.
-/

namespace Coracle

/-! ## Generic list helpers (semantics of the ramda combinators used) -/

/-- `uniqBy key xs` keeps the first occurrence of every key, preserving order
(semantics of ramda's `uniqBy`).  `seen` accumulates keys already emitted. -/
def uniqByAux {α β : Type} [DecidableEq β] (key : α → β) : List α → List β → List α
  | [], _ => []
  | x :: rest, seen =>
    if key x ∈ seen then uniqByAux key rest seen
    else x :: uniqByAux key rest (key x :: seen)

def uniqBy {α β : Type} [DecidableEq β] (key : α → β) (xs : List α) : List α :=
  uniqByAux key xs []

/-- Insert `x` into `l` before the first element `y` with `le x y`
(the insertion step of a stable insertion sort). -/
def insertSorted {α : Type} (le : α → α → Bool) (x : α) : List α → List α
  | [] => [x]
  | y :: ys => if le x y then x :: y :: ys else y :: insertSorted le x ys

/-- Stable sort by a boolean comparator (semantics of ramda's `sortBy`: a
stable ascending sort; for a total-preorder comparator every stable sort
produces the same list, so insertion sort is a faithful model). -/
def sortByBool {α : Type} (le : α → α → Bool) : List α → List α
  | [] => []
  | x :: xs => insertSorted le x (sortByBool le xs)

/-! ## Shareability (`isShareableRelay`)

Embedding of the regex checks of `isShareableRelay` on the character list of
the URL.  The regex `.` character class is modelled as "any character". -/

/-- Is there a `'.'` somewhere with at least one character after it
(the `\..+` part of `/^wss?:\/\/.+\..+/`)? -/
def dotThenMore : List Char → Bool
  | [] => false
  | c :: rest => (decide (c = '.') && !rest.isEmpty) || dotThenMore rest

/-- `.+\..+` — at least one leading character, then a dot, then at least one
further character. -/
def dotMid : List Char → Bool
  | [] => false
  | _ :: rest => dotThenMore rest

/-- Number of non-overlapping occurrences of `"://"` (`url.match(/:\/\//g).length`). -/
def countSep : List Char → Nat
  | ':' :: '/' :: '/' :: rest => countSep rest + 1
  | _ :: rest => countSep rest
  | [] => 0

/-- The whitespace characters of the model (regex `\s`, modelled by the four
common ASCII whitespace characters). -/
def isWsChar (c : Char) : Bool :=
  decide (c = ' ') || decide (c = '\t') || decide (c = '\n') || decide (c = '\r')

/-- Is there a `':'` followed immediately by a digit (regex `:\d+`)? -/
def colonDigit : List Char → Bool
  | ':' :: c :: rest => c.isDigit || colonDigit (c :: rest)
  | _ :: rest => colonDigit rest
  | [] => false

/-- Drop a maximal run of leading digits. -/
def dropDigits : List Char → List Char
  | c :: rest => if c.isDigit then dropDigits rest else c :: rest
  | [] => []

/-- Consume one-or-more digits; `none` when the list does not start with a
digit. -/
def digits1 : List Char → Option (List Char)
  | c :: rest => if c.isDigit then some (dropDigits rest) else none
  | [] => none

/-- Does `\d+\.\d+\.\d+\.\d+` match starting exactly here?  Maximal munch is
safe because a digit is never a `'.'`. -/
def ip4At (cs : List Char) : Bool :=
  match digits1 cs with
  | none => false
  | some r1 =>
    match r1 with
    | '.' :: r1' =>
      match digits1 r1' with
      | none => false
      | some r2 =>
        match r2 with
        | '.' :: r2' =>
          match digits1 r2' with
          | none => false
          | some r3 =>
            match r3 with
            | '.' :: r3' => (digits1 r3').isSome
            | _ => false
        | _ => false
    | _ => false

/-- Does `\d+\.\d+\.\d+\.\d+` match anywhere in the list? -/
def hasIp4 : List Char → Bool
  | [] => false
  | c :: rest => ip4At (c :: rest) || hasIp4 rest

/-- Does `pat` occur as a contiguous sublist? -/
def hasSub (pat : List Char) : List Char → Bool
  | [] => pat.isEmpty
  | c :: rest => pat.isPrefixOf (c :: rest) || hasSub pat rest

/-- `isShareableRelay` from `feed.ts`: the conjunction of the eight regex
checks, in source order. -/
def isShareableRelay (url : String) : Bool :=
  let cs := url.data
  -- /^wss?:\/\/.+\..+/ — a websocket url with a dot
  ((("wss://".data.isPrefixOf cs) || ("ws://".data.isPrefixOf cs)) &&
    (if "wss://".data.isPrefixOf cs then dotMid (cs.drop 6) else dotMid (cs.drop 5))) &&
  -- exactly one "://"
  (countSep cs == 1) &&
  -- no whitespace
  !(cs.any isWsChar) &&
  -- no url-encoded whitespace (no '%')
  !(cs.any (fun c => decide (c = '%'))) &&
  -- /^wss:\/\/.+/ — secure, with at least one character after the scheme
  (("wss://".data.isPrefixOf cs) && !(cs.drop 6).isEmpty) &&
  -- no port number after the scheme
  !(colonDigit (cs.drop 6)) &&
  -- no raw ip addresses after the scheme
  !(hasIp4 (cs.drop 6)) &&
  -- no nostr.wine virtual relays
  !(hasSub "/npub".data (cs.drop 6))

/-- `relayIsLowQuality` from `relays.ts` (`pool.get(url)?.meta?.quality < 0.6`):
the quality oracle is a parameter; an absent score is *not* low quality
(in JavaScript `undefined < 0.6` is `false`). -/
def relayIsLowQuality (quality : String → Option ℚ) (url : String) : Bool :=
  match quality url with
  | some v => decide (v < 3/5)
  | none => false

/-! ## `selectHints` -/

/-- The scan loop of `selectHints`: deduplicate (`seen`), filter by
shareability, classify healthy (`ok`) / low-quality (`bad`), and break as soon
as `ok` holds strictly more than `lim` entries. -/
def selectLoop (quality : String → Option ℚ) (lim : Nat) :
    List String → List String → List String → List String → List String × List String
  | [], _, ok, bad => (ok, bad)
  | url :: rest, seen, ok, bad =>
    if url ∈ seen then selectLoop quality lim rest seen ok bad
    else
      if isShareableRelay url then
        -- push into `bad` or `ok`, then `if (ok.length > limit) break`
        if relayIsLowQuality quality url then
          if lim < ok.length then (ok, bad ++ [url])
          else selectLoop quality lim rest (url :: seen) ok (bad ++ [url])
        else
          if lim < (ok ++ [url]).length then (ok ++ [url], bad)
          else selectLoop quality lim rest (url :: seen) (ok ++ [url]) bad
      else selectLoop quality lim rest (url :: seen) ok bad

/-- The effective limit: `if (!limit) limit = getSetting("relay_limit")` —
JavaScript treats both `null` and `0` as falsy. -/
def effLimit (relayLimit : Nat) : Option Nat → Nat
  | none => relayLimit
  | some 0 => relayLimit
  | some k => k

/-- `selectHints` from `relays.ts`.  The candidate sequence is
`chain(hints, getUserRelayUrls(RelayMode.Read), env.get().DEFAULT_RELAYS)`;
the session's read relays and the default relays are parameters, as is the
`relay_limit` setting and the quality oracle. -/
def selectHints (userReadRelays defaultRelays : List String) (relayLimit : Nat)
    (quality : String → Option ℚ) (hints : List String) (limit : Option Nat) :
    List String :=
  let lim := effLimit relayLimit limit
  let okbad := selectLoop quality lim (hints ++ userReadRelays ++ defaultRelays) [] [] []
  (okbad.1 ++ okbad.2).take lim

/-! ## `mergeHints` (rank aggregation) -/

/-- One list's contribution to a URL's accumulated score: the item at 0-based
position `i` of a list of length `L` contributes `1/(i+1)/L`
(`hints.forEach((hint, i) => ...)`).  `i` is the current position, `L` the
full length of the list. -/
def listScoreAux (u : String) (L : Nat) : List String → Nat → ℚ
  | [], _ => 0
  | x :: rest, i =>
    (if x = u then ((1 : ℚ) / (i + 1)) / L else 0) + listScoreAux u L rest (i + 1)

def listScore (u : String) (l : List String) : ℚ :=
  listScoreAux u l.length l 0

/-- Occurrences of `u` in `l` (each occurrence increments `count` by one). -/
def countIn (u : String) : List String → Nat
  | [] => 0
  | x :: rest => (if x = u then 1 else 0) + countIn u rest

/-- Accumulated score of `u` over all groups. -/
def totalScore (u : String) (groups : List (List String)) : ℚ :=
  (groups.map (listScore u)).sum

/-- Accumulated list-membership count of `u` over all groups. -/
def totalCount (u : String) (groups : List (List String)) : Nat :=
  (groups.map (countIn u)).sum

/-- The final weight
`Math.log(groups.length / count) + Math.log1p(Math.exp(score - count))`;
`sortBy` sorts ascending, so a smaller weight is a better rank. -/
noncomputable def hintWeight (numGroups count : Nat) (score : ℚ) : ℝ :=
  Real.log ((numGroups : ℝ) / (count : ℝ)) +
    Real.log (1 + Real.exp ((score : ℝ) - (count : ℝ)))

/-- `mergeHints` from `relays.ts`: fold all groups into per-URL scores (the
keys retain first-encountered insertion order, as JavaScript object keys do),
sort ascending by final weight (stably), and truncate by
`limit || relay_limit`. -/
noncomputable def mergeHints (relayLimit : Nat) (groups : List (List String))
    (limit : Option Nat) : List String :=
  let keys := uniqBy id groups.flatten
  let sorted := sortByBool (fun a b =>
    @decide
      (hintWeight groups.length (totalCount a groups) (totalScore a groups) ≤
        hintWeight groups.length (totalCount b groups) (totalScore b groups))
      (Classical.propDecidable _)) keys
  sorted.take (effLimit relayLimit limit)

/-! ## The `FeedLoader` state machine

The loader's mutable fields (`notes`, `parents`, `buffer`, `deferred`, the
pending `setTimeout` callbacks, the `stopped` flag and — modelled from the
spec's transport contract — the historical cursor's buffer) become an explicit
state record, and each entry point of the class becomes a step of a transition
function.  `findReplyId` (from `src/util/nostr`, outside the analyzed
sources) extracts the parent event id from an event's reply tag; it is
modelled as the `replyTo` field of the event.  The note/reaction kind lists
(also from `src/util/nostr`) and the mute predicate are parameters. -/

/-- An immutable protocol event, with the fields `FeedLoader` reads.
`replyTo` models `findReplyId e` (`none` when the event is not a reply). -/
structure Event where
  id : String
  kind : Int
  created_at : Int
  replyTo : Option String
deriving DecidableEq, Repr

/-- An event plus the mutable `replies` list populated by the assembler. -/
inductive DisplayEvent where
  | mk (event : Event) (replies : List DisplayEvent)

def DisplayEvent.event : DisplayEvent → Event
  | .mk e _ => e

def DisplayEvent.replies : DisplayEvent → List DisplayEvent
  | .mk _ rs => rs

/-- The parent side map (`this.parents : Map<string, DisplayEvent>`), as an
association list in insertion order. -/
abbrev ParentMap : Type := List (String × DisplayEvent)

/-- `Map.get`. -/
def pmGet (k : String) : ParentMap → Option DisplayEvent
  | [] => none
  | (k', v) :: rest => if k' = k then some v else pmGet k rest

/-- `Map.set`: replace in place, or append a new binding. -/
def pmSet (k : String) (v : DisplayEvent) : ParentMap → ParentMap
  | [] => [(k, v)]
  | (k', v') :: rest => if k' = k then (k, v) :: rest else (k', v') :: pmSet k v rest

/-- The constructor options of `FeedLoader` together with its external
signal providers.  `muted` is the `isEventMuted` snapshot; `filterDelta` is
`guessFilterDelta(opts.filters)` (from `./filters`, outside the analyzed
sources — modelled from the spec, where the ancient cutoff is
`now − estimatedFilterTimeSpan`); `noteKinds` / `reactionKinds` come from
`src/util/nostr`. -/
structure FeedOpts where
  shouldDefer : Bool
  shouldListen : Bool
  shouldHideReplies : Bool
  shouldLoadParents : Bool
  muted : Event → Bool
  filterDelta : Int
  noteKinds : List Int
  reactionKinds : List Int

/-- The loader's mutable state.  `timers` holds the payloads of pending
`setTimeout(() => this.addToFeed(defer), …)` callbacks; `cursorBuffer` is the
historical cursor's internal buffer (modelled from the spec:
`cursor.take(n)` "pulls the next up-to-`n` buffered historical events"). -/
structure FeedState where
  stopped : Bool
  notes : List DisplayEvent
  parents : ParentMap
  buffer : List Event
  deferred : List Event
  timers : List (List Event)
  cursorBuffer : List Event

def initState : FeedState :=
  { stopped := false, notes := [], parents := [], buffer := [], deferred := [],
    timers := [], cursorBuffer := [] }

/-- `discardEvents`: drop muted events and (when `shouldHideReplies`) replies. -/
def discardEvents (opts : FeedOpts) (events : List Event) : List Event :=
  events.filter fun e => !(opts.muted e) && !(opts.shouldHideReplies && e.replyTo.isSome)

/-- The `while (true)` walk of `buildFeedChunk`: as long as the current event
has a reply tag whose target is in the parent map, upsert the event into that
parent's `replies` (only note kinds, deduplicated by id — `pushToKey` mutates
the map entry in place, hence the map is updated) and continue from the
parent.  The JavaScript loop does not terminate when the parent map contains
a reference cycle, so the model carries fuel; every property proved below
holds for every fuel value. -/
def resolveUp (noteKinds : List Int) : Nat → DisplayEvent → ParentMap → DisplayEvent × ParentMap
  | 0, e, pm => (e, pm)
  | fuel + 1, e, pm =>
    match e.event.replyTo with
    | none => (e, pm)
    | some parentId =>
      match pmGet parentId pm with
      | none => (e, pm)
      | some parent =>
        let parent' :=
          if e.event.kind ∈ noteKinds ∧ ¬ parent.replies.any (fun r => r.event.id = e.event.id)
          then .mk parent.event (parent.replies ++ [e])
          else parent
        resolveUp noteKinds fuel parent' (pmSet parentId parent' pm)

/-- The `.map` over incoming events (left to right; parent-map mutations made
while walking one event are visible to the later ones). -/
def walkAll (noteKinds : List Int) (fuel : Nat) :
    List Event → ParentMap → List DisplayEvent × ParentMap
  | [], pm => ([], pm)
  | e :: rest, pm =>
    let epm := resolveUp noteKinds fuel (.mk e []) pm
    let rec' := walkAll noteKinds fuel rest epm.2
    (epm.1 :: rec'.1, rec'.2)

/-- `buildFeedChunk`: walk each event up to its top-most locally resolved
ancestor, drop events already shown (`seen`) and reaction kinds, deduplicate
each survivor's replies by id, deduplicate the survivors by id, and sort the
chunk descending by `created_at` (ramda's stable `sortBy` on the key
`-created_at`).  The local `const parents = []` of the source is always empty
(dead code), so the `.concat(parents)` is omitted.  Returns the chunk and the
updated parent map. -/
def buildFeedChunk (opts : FeedOpts) (fuel : Nat) (currentIds : List String)
    (pm : ParentMap) (incoming : List Event) : List DisplayEvent × ParentMap :=
  let walked := walkAll opts.noteKinds fuel incoming pm
  let filtered := walked.1.filter fun e =>
    !(currentIds.contains e.event.id) && !(opts.reactionKinds.contains e.event.kind)
  let deduped := filtered.map fun e => DisplayEvent.mk e.event (uniqBy (·.event.id) e.replies)
  let uniq := uniqBy (fun d => d.event.id) deduped
  (sortByBool (fun a b => decide (b.event.created_at ≤ a.event.created_at)) uniq, walked.2)

/-- `addToFeed`: `this.notes.update($notes => uniqBy(prop("id"),
$notes.concat(this.buildFeedChunk(notes))))`. -/
def addToFeed (opts : FeedOpts) (fuel : Nat) (st : FeedState) (events : List Event) :
    FeedState :=
  let chunk := buildFeedChunk opts fuel (st.notes.map (·.event.id)) st.parents events
  { st with
      notes := uniqBy (fun d => d.event.id) (st.notes ++ chunk.1)
      parents := chunk.2 }

/-- The deferral predicate of `deferOrphans`: has a parent id that is not yet
locally resolved. -/
def orphanPred (pm : ParentMap) (e : Event) : Bool :=
  match e.replyTo with
  | some pid => (pmGet pid pm).isNone
  | none => false

/-- The deferral predicate of `deferAncient`: older than
`now() - guessFilterDelta(filters)`. -/
def ancientPred (opts : FeedOpts) (time : Int) (e : Event) : Bool :=
  decide (e.created_at < time - opts.filterDelta)

/-- `load(n)` (one call, at wall-clock `time`): pull up to `n` events from the
cursor buffer, `discardEvents` them, and either run the two deferral passes
(when `shouldDefer`: splice the `deferred` accumulator in, pull out orphans —
only when `shouldLoadParents` — then ancients, scheduling each pulled-out set
as a timer payload) and commit the remainder, or commit directly.  The
`await this.ready` readiness barrier only delays the call and is not part of
the state.  No field of the state guards on `stopped`, faithfully to the
source. -/
def loadStep (opts : FeedOpts) (fuel : Nat) (time : Int) (n : Nat) (st : FeedState) :
    FeedState :=
  let events := st.cursorBuffer.take n
  let st1 := { st with cursorBuffer := st.cursorBuffer.drop n }
  let notes := discardEvents opts events
  if opts.shouldDefer then
    let combined := notes ++ st1.deferred
    let st2 := { st1 with deferred := [] }
    -- deferOrphans
    let afterOrphans :=
      if opts.shouldLoadParents then
        let part := combined.partition (orphanPred st2.parents)
        ({ st2 with timers := st2.timers ++ [part.1] }, part.2)
      else (st2, combined)
    -- deferAncient
    let part2 := afterOrphans.2.partition (ancientPred opts time)
    let st3 := { afterOrphans.1 with timers := afterOrphans.1.timers ++ [part2.1] }
    addToFeed opts fuel st3 part2.2
  else
    addToFeed opts fuel st1 notes

/-- `loadBuffer()`: commit the whole live buffer through `addToFeed`, then
clear it.  No `stopped` guard, faithfully to the source. -/
def loadBufferStep (opts : FeedOpts) (fuel : Nat) (st : FeedState) : FeedState :=
  let st' := addToFeed opts fuel st st.buffer
  { st' with buffer := [] }

/-- A live subscription batch (only when `shouldListen`): filtered through
`discardEvents` and appended to the live buffer, never directly to the feed.
(The accompanying `loadParents` fetch completes asynchronously and is
modelled by a separate `parentBatch` operation.) -/
def liveBatchStep (opts : FeedOpts) (events : List Event) (st : FeedState) : FeedState :=
  if opts.shouldListen then
    { st with buffer := st.buffer ++ discardEvents opts events }
  else st

/-- A batch arriving in `loadParents`'s `onEvent`: each surviving event is
stored in the parent map keyed by its own id (replacing any previous entry). -/
def parentBatchStep (opts : FeedOpts) (events : List Event) (st : FeedState) : FeedState :=
  { st with parents :=
      (discardEvents opts events).foldl (fun pm e => pmSet e.id (.mk e []) pm) st.parents }

/-- Historical events becoming available in the cursor's internal buffer
(modelled from the spec's transport contract for `cursor.take`). -/
def cursorArriveStep (events : List Event) (st : FeedState) : FeedState :=
  { st with cursorBuffer := st.cursorBuffer ++ events }

/-- A pending deferral timer fires: its payload goes through `addToFeed`
directly (`setTimeout(() => this.addToFeed(defer), …)`).  No `stopped` guard,
faithfully to the source. -/
def fireTimerStep (opts : FeedOpts) (fuel : Nat) (i : Nat) (st : FeedState) : FeedState :=
  match st.timers[i]? with
  | none => st
  | some payload =>
    let st' := addToFeed opts fuel st payload
    { st' with timers := st'.timers.eraseIdx i }

/-- `stop()`: set the stopped flag.  (It also closes every tracked
subscription handle; the handle set is not represented.) -/
def stopStep (st : FeedState) : FeedState :=
  { st with stopped := true }

/-- The operation alphabet of a `FeedLoader` run. -/
inductive FeedOp where
  | cursorArrive (events : List Event)
  | liveBatch (events : List Event)
  | parentBatch (events : List Event)
  | load (time : Int) (n : Nat)
  | loadBuffer
  | fireTimer (i : Nat)
  | stop

def step (opts : FeedOpts) (fuel : Nat) (st : FeedState) : FeedOp → FeedState
  | .cursorArrive events => cursorArriveStep events st
  | .liveBatch events => liveBatchStep opts events st
  | .parentBatch events => parentBatchStep opts events st
  | .load time n => loadStep opts fuel time n st
  | .loadBuffer => loadBufferStep opts fuel st
  | .fireTimer i => fireTimerStep opts fuel i st
  | .stop => stopStep st

/-- Run a sequence of operations from the freshly constructed loader. -/
def runOps (opts : FeedOpts) (fuel : Nat) (ops : List FeedOp) : FeedState :=
  ops.foldl (step opts fuel) initState

/-- "No id appears twice within one parent's replies", recursively. -/
inductive RepliesUniq : DisplayEvent → Prop where
  | mk {e : Event} {rs : List DisplayEvent} :
      (rs.map (·.event.id)).Nodup → (∀ r ∈ rs, RepliesUniq r) →
      RepliesUniq (.mk e rs)

/-- "Only note-kind events ever live in a replies list", recursively. -/
inductive RepliesNoted (noteKinds : List Int) : DisplayEvent → Prop where
  | mk {e : Event} {rs : List DisplayEvent} :
      (∀ r ∈ rs, r.event.kind ∈ noteKinds) → (∀ r ∈ rs, RepliesNoted noteKinds r) →
      RepliesNoted noteKinds (.mk e rs)

/-! ## Concrete fixtures used by the counterexamples -/

/-- Options with a mute-nothing predicate, listening enabled, deferral and
parent loading disabled; note kind `1`, reaction kind `7`. -/
def optsPlain : FeedOpts :=
  { shouldDefer := false, shouldListen := true, shouldHideReplies := false,
    shouldLoadParents := false, muted := fun _ => false, filterDelta := 1000,
    noteKinds := [1], reactionKinds := [7] }

/-- The same options with deferred ordering and parent loading enabled. -/
def optsDefer : FeedOpts :=
  { optsPlain with shouldDefer := true, shouldLoadParents := true }

def evEarly : Event := { id := "early", kind := 1, created_at := 10, replyTo := none }

def evLate : Event := { id := "late", kind := 1, created_at := 20, replyTo := none }

/-- A reply whose parent id is never resolved locally. -/
def evOrphan : Event := { id := "orphan", kind := 1, created_at := 100, replyTo := some "missing" }

/-! ## Lemmas about `uniqBy` -/

theorem mem_uniqByAux {α β : Type} [DecidableEq β] {key : α → β} :
    ∀ {xs : List α} {seen : List β} {x : α}, x ∈ uniqByAux key xs seen → x ∈ xs := by
  intro xs
  induction xs with
  | nil => intro seen x h; exact absurd h (by simp [uniqByAux])
  | cons y ys ih =>
    intro seen x h
    simp only [uniqByAux] at h
    by_cases hk : key y ∈ seen
    · simp only [hk, if_true] at h
      exact List.mem_cons_of_mem _ (ih h)
    · simp only [hk, if_false, List.mem_cons] at h
      rcases h with h | h
      · simp [h]
      · exact List.mem_cons_of_mem _ (ih h)

theorem mem_uniqBy {α β : Type} [DecidableEq β] {key : α → β} {xs : List α} {x : α}
    (h : x ∈ uniqBy key xs) : x ∈ xs :=
  mem_uniqByAux h

/-- Keys that were already seen never re-appear in `uniqByAux`. -/
theorem uniqByAux_key_not_seen {α β : Type} [DecidableEq β] {key : α → β} :
    ∀ {xs : List α} {seen : List β} {x : α}, x ∈ uniqByAux key xs seen → key x ∉ seen := by
  intro xs
  induction xs with
  | nil => intro seen x h; exact absurd h (by simp [uniqByAux])
  | cons y ys ih =>
    intro seen x h
    simp only [uniqByAux] at h
    by_cases hk : key y ∈ seen
    · simp only [hk, if_true] at h
      exact ih h
    · simp only [hk, if_false, List.mem_cons] at h
      rcases h with h | h
      · subst h; exact hk
      · intro hc
        exact ih h (List.mem_cons_of_mem _ hc)

/-- The key images of `uniqByAux` output are pairwise distinct. -/
theorem uniqByAux_nodup {α β : Type} [DecidableEq β] {key : α → β} :
    ∀ {xs : List α} {seen : List β}, ((uniqByAux key xs seen).map key).Nodup := by
  intro xs
  induction xs with
  | nil => intro seen; simp [uniqByAux]
  | cons y ys ih =>
    intro seen
    simp only [uniqByAux]
    by_cases hk : key y ∈ seen
    · simp only [hk, if_true]
      exact ih
    · simp only [hk, if_false, List.map_cons, List.nodup_cons]
      refine ⟨?_, ih⟩
      intro hmem
      rcases List.mem_map.1 hmem with ⟨z, hz, hzk⟩
      exact uniqByAux_key_not_seen hz (by simp [hzk])

theorem uniqBy_nodup {α β : Type} [DecidableEq β] {key : α → β} {xs : List α} :
    ((uniqBy key xs).map key).Nodup :=
  uniqByAux_nodup

/-- If the key images are already distinct, `uniqByAux` is the identity
(provided none of the keys was pre-seen). -/
theorem uniqByAux_eq_self {α β : Type} [DecidableEq β] {key : α → β} :
    ∀ {xs : List α} {seen : List β}, (xs.map key).Nodup → (∀ x ∈ xs, key x ∉ seen) →
      uniqByAux key xs seen = xs := by
  intro xs
  induction xs with
  | nil => intro seen _ _; simp [uniqByAux]
  | cons y ys ih =>
    intro seen hnd hs
    simp only [List.map_cons, List.nodup_cons] at hnd
    have hy : key y ∉ seen := hs y (by simp)
    simp only [uniqByAux, hy, if_false]
    congr 1
    refine ih hnd.2 ?_
    intro x hx
    simp only [List.mem_cons, not_or]
    refine ⟨?_, hs x (List.mem_cons_of_mem _ hx)⟩
    intro hxy
    exact hnd.1 (hxy ▸ List.mem_map_of_mem key hx)

theorem uniqBy_eq_self {α β : Type} [DecidableEq β] {key : α → β} {xs : List α}
    (h : (xs.map key).Nodup) : uniqBy key xs = xs :=
  uniqByAux_eq_self h (by simp)

/-! ## Lemmas about `selectHints` -/

/-- Everything the scan loop adds to `ok` is shareable and healthy; everything
it adds to `bad` is shareable and low-quality. -/
theorem selectLoop_mem (q : String → Option ℚ) (lim : Nat) :
    ∀ (cands seen ok bad : List String),
      (∀ u ∈ (selectLoop q lim cands seen ok bad).1,
          u ∈ ok ∨ (isShareableRelay u = true ∧ relayIsLowQuality q u = false)) ∧
      (∀ u ∈ (selectLoop q lim cands seen ok bad).2,
          u ∈ bad ∨ (isShareableRelay u = true ∧ relayIsLowQuality q u = true)) := by
  intro cands
  induction cands with
  | nil =>
    intro seen ok bad
    constructor <;> (intro u hu; simp only [selectLoop] at hu; exact Or.inl hu)
  | cons url rest ih =>
    intro seen ok bad
    simp only [selectLoop]
    by_cases h1 : url ∈ seen
    · simp only [h1, if_true]
      exact ih seen ok bad
    · simp only [h1, if_false]
      by_cases h2 : isShareableRelay url
      · simp only [h2, if_true]
        by_cases h3 : relayIsLowQuality q url
        · simp only [h3, if_true]
          by_cases h4 : lim < ok.length
          · simp only [h4, if_true]
            refine ⟨fun u hu => Or.inl hu, fun u hu => ?_⟩
            rcases List.mem_append.1 hu with h | h
            · exact Or.inl h
            · simp only [List.mem_singleton] at h
              exact Or.inr ⟨h ▸ h2, h ▸ h3⟩
          · simp only [h4, if_false]
            refine ⟨(ih _ _ _).1, fun u hu => ?_⟩
            rcases (ih (url :: seen) ok (bad ++ [url])).2 u hu with h | h
            · rcases List.mem_append.1 h with h | h
              · exact Or.inl h
              · simp only [List.mem_singleton] at h
                exact Or.inr ⟨h ▸ h2, h ▸ h3⟩
            · exact Or.inr h
        · simp only [h3, if_false]
          by_cases h4 : lim < (ok ++ [url]).length
          · simp only [h4, if_true]
            refine ⟨fun u hu => ?_, fun u hu => Or.inl hu⟩
            rcases List.mem_append.1 hu with h | h
            · exact Or.inl h
            · simp only [List.mem_singleton] at h
              refine Or.inr ⟨h ▸ h2, ?_⟩
              rw [h]
              exact Bool.not_eq_true _ ▸ (by simpa using h3)
          · simp only [h4, if_false]
            refine ⟨fun u hu => ?_, (ih _ _ _).2⟩
            rcases (ih (url :: seen) (ok ++ [url]) bad).1 u hu with h | h
            · rcases List.mem_append.1 h with h | h
              · exact Or.inl h
              · simp only [List.mem_singleton] at h
                refine Or.inr ⟨h ▸ h2, ?_⟩
                rw [h]
                simpa using h3
            · exact Or.inr h
      · simp only [h2, if_false]
        exact ih _ _ _

/-- **C8** — Selector output always places all healthy candidates before
low-quality ones: in the result of `selectHints`, once a low-quality URL
occurs, every later URL is low-quality too (so no healthy URL follows a
low-quality one), for every input candidate sequence, fallback lists,
quality oracle and limit. -/
theorem selectHints_healthy_first (ur dr : List String) (rl : Nat)
    (q : String → Option ℚ) (hints : List String) (lim : Option Nat) :
    List.Pairwise (fun a b => relayIsLowQuality q a = true → relayIsLowQuality q b = true)
      (selectHints ur dr rl q hints lim) := by
  unfold selectHints
  apply List.Pairwise.sublist (List.take_sublist _ _)
  have h := selectLoop_mem q (effLimit rl lim) (hints ++ ur ++ dr) [] [] []
  have hok : ∀ u ∈ (selectLoop q (effLimit rl lim) (hints ++ ur ++ dr) [] [] []).1,
      relayIsLowQuality q u = false := by
    intro u hu
    rcases h.1 u hu with hc | hc
    · exact absurd hc (List.not_mem_nil u)
    · exact hc.2
  have hbad : ∀ u ∈ (selectLoop q (effLimit rl lim) (hints ++ ur ++ dr) [] [] []).2,
      relayIsLowQuality q u = true := by
    intro u hu
    rcases h.2 u hu with hc | hc
    · exact absurd hc (List.not_mem_nil u)
    · exact hc.2
  rw [List.pairwise_append]
  refine ⟨?_, ?_, ?_⟩
  · apply List.pairwise_of_forall_mem_list
    intro a ha b _ hlow
    rw [hok a ha] at hlow
    exact absurd hlow (by simp)
  · apply List.pairwise_of_forall_mem_list
    intro a _ b hb _
    exact hbad b hb
  · intro a ha b hb hlow
    rw [hok a ha] at hlow
    exact absurd hlow (by simp)

/-- **C7 (counterexample)** — the claim fails at limit `k = 0`: JavaScript's
`if (!limit)` treats `0` as falsy, so selecting with limit `0` falls back to
the `relay_limit` setting (here `1`) and returns one URL instead of none. -/
theorem selectHints_limit_zero_cex :
    ¬ ((selectHints [] [] 1 (fun _ => none)
          (mergeHints 1 [["wss://a.example/"]] none) (some 0)).length ≤ 0) := by
  have hm : mergeHints 1 [["wss://a.example/"]] none = ["wss://a.example/"] := by
    unfold mergeHints
    simp [uniqBy, uniqByAux, sortByBool, insertSorted, effLimit]
  rw [hm]
  decide

/-- **C7 (amended)** — for every *positive* limit `k`, merging any collection
of candidate lists and selecting with limit `k` returns at most `k` URLs, and
every returned URL satisfies `isShareableRelay`. -/
theorem selectHints_mergeHints_bounded_shareable (ur dr : List String) (rl : Nat)
    (q : String → Option ℚ) (groups : List (List String)) (k : Nat) (hk : 1 ≤ k) :
    (selectHints ur dr rl q (mergeHints rl groups none) (some k)).length ≤ k ∧
    ∀ u ∈ selectHints ur dr rl q (mergeHints rl groups none) (some k),
      isShareableRelay u = true := by
  have hef : effLimit rl (some k) = k := by
    cases k with
    | zero => omega
    | succ n => rfl
  constructor
  · unfold selectHints
    rw [hef]
    exact List.length_take_le k _
  · intro u hu
    unfold selectHints at hu
    have hu' := List.mem_of_mem_take hu
    have h := selectLoop_mem q (effLimit rl (some k))
      (mergeHints rl groups none ++ ur ++ dr) [] [] []
    rcases List.mem_append.1 hu' with hc | hc
    · rcases h.1 u hc with hc' | hc'
      · exact absurd hc' (List.not_mem_nil u)
      · exact hc'.1
    · rcases h.2 u hc with hc' | hc'
      · exact absurd hc' (List.not_mem_nil u)
      · exact hc'.1

/-- Witness for the amended C7 at `k = 1` on the empty collection. -/
theorem selectHints_mergeHints_bounded_shareable_witness :
    (1 ≤ 1) ∧
    ((selectHints [] [] 1 (fun _ => none) (mergeHints 1 [] none) (some 1)).length ≤ 1 ∧
      ∀ u ∈ selectHints [] [] 1 (fun _ => none) (mergeHints 1 [] none) (some 1),
        isShareableRelay u = true) :=
  ⟨le_refl 1,
    selectHints_mergeHints_bounded_shareable [] [] 1 (fun _ => none) [] 1 (le_refl 1)⟩

/-- **C6 (counterexample)** — `selectHints` on an *empty* candidate sequence
does not return the empty list whenever the session's read relays (or the
default relays) are non-empty: the source chains
`getUserRelayUrls(RelayMode.Read)` and `env.get().DEFAULT_RELAYS` onto the
hints. -/
theorem selectHints_empty_cex :
    selectHints ["wss://u.example/"] [] 10 (fun _ => none) [] none ≠ [] := by
  decide

/-- **C6 (amended)** — scoring and selection return empty results on empty
input: `mergeHints` of an empty collection is `[]` for every limit, and
`selectHints` of an empty candidate sequence is `[]` *provided the fallback
sources (user read relays and default relays) are also empty*. -/
theorem empty_input_empty_output (rl : Nat) (q : String → Option ℚ) (lim : Option Nat) :
    mergeHints rl [] lim = [] ∧ selectHints [] [] rl q [] lim = [] := by
  constructor
  · unfold mergeHints
    simp [uniqBy, uniqByAux, sortByBool]
  · unfold selectHints
    simp [selectLoop]

/-! ## Lemmas about the hint scorer -/

/-- Each occurrence contributes at most `1` to the accumulated score, so the
score is bounded by the occurrence count. -/
theorem listScoreAux_le (u : String) (L : Nat) (hL : 1 ≤ L) :
    ∀ (l : List String) (i : Nat), listScoreAux u L l i ≤ (countIn u l : ℚ) := by
  intro l
  induction l with
  | nil => intro i; simp [listScoreAux, countIn]
  | cons x rest ih =>
    intro i
    simp only [listScoreAux, countIn]
    by_cases hx : x = u
    · simp only [hx, if_pos rfl]
      have hi : (0 : ℚ) < (i : ℚ) + 1 := by positivity
      have hL' : (1 : ℚ) ≤ (L : ℚ) := by exact_mod_cast hL
      have h1 : ((1 : ℚ) / ((i : ℚ) + 1)) / (L : ℚ) ≤ 1 := by
        rw [div_le_one (by linarith)]
        have h2 : (1 : ℚ) / ((i : ℚ) + 1) ≤ 1 := by
          rw [div_le_one hi]
          linarith
        linarith
      have := ih (i + 1)
      push_cast
      push_cast at this h1
      linarith
    · simp only [if_neg hx]
      have := ih (i + 1)
      push_cast
      push_cast at this
      linarith

theorem listScore_le (u : String) (l : List String) :
    listScore u l ≤ (countIn u l : ℚ) := by
  cases l with
  | nil => simp [listScore, listScoreAux, countIn]
  | cons x rest =>
    exact listScoreAux_le u _ (by simp) _ 0

theorem totalScore_le (u : String) (groups : List (List String)) :
    totalScore u groups ≤ (totalCount u groups : ℚ) := by
  induction groups with
  | nil => simp [totalScore, totalCount]
  | cons l rest ih =>
    simp only [totalScore, totalCount, List.map_cons, List.sum_cons] at *
    push_cast
    push_cast at ih
    have := listScore_le u l
    linarith

/-- A URL present in every list is counted at least once per list. -/
theorem length_le_totalCount (u : String) (groups : List (List String))
    (h : ∀ l ∈ groups, 1 ≤ countIn u l) : groups.length ≤ totalCount u groups := by
  induction groups with
  | nil => simp [totalCount]
  | cons l rest ih =>
    simp only [totalCount, List.map_cons, List.sum_cons, List.length_cons]
    have h1 := h l (by simp)
    have h2 := ih fun l' hl' => h l' (List.mem_cons_of_mem _ hl')
    simp only [totalCount] at h2
    omega

/-- The final weight is strictly increasing in the accumulated score (count
held fixed): a higher in-list rank makes the weight *larger*, i.e. worse. -/
theorem hintWeight_strictMono_score {G c : Nat} {s₁ s₂ : ℚ} (h : s₁ < s₂) :
    hintWeight G c s₁ < hintWeight G c s₂ := by
  unfold hintWeight
  have hs : ((s₁ : ℝ) - c) < ((s₂ : ℝ) - c) := by
    have : (s₁ : ℝ) < (s₂ : ℝ) := by exact_mod_cast h
    linarith
  have h1 : Real.exp ((s₁ : ℝ) - c) < Real.exp ((s₂ : ℝ) - c) := Real.exp_lt_exp.2 hs
  have h2 : Real.log (1 + Real.exp ((s₁ : ℝ) - c)) < Real.log (1 + Real.exp ((s₂ : ℝ) - c)) :=
    Real.log_lt_log (by linarith [Real.exp_pos ((s₁ : ℝ) - c)]) (by linarith)
  linarith

/-- When the count reaches the number of groups and the score is bounded by
the count, the weight is at most `log 2`. -/
theorem hintWeight_le_log_two {G c : Nat} {s : ℚ} (hG : 1 ≤ G) (hc : G ≤ c)
    (hs : s ≤ (c : ℚ)) : hintWeight G c s ≤ Real.log 2 := by
  unfold hintWeight
  have hc0 : (0 : ℝ) < (c : ℝ) := by
    have : 1 ≤ c := le_trans hG hc
    exact_mod_cast this
  have h1 : Real.log ((G : ℝ) / (c : ℝ)) ≤ 0 := by
    apply Real.log_nonpos (by positivity)
    rw [div_le_one hc0]
    exact_mod_cast hc
  have h2 : Real.exp ((s : ℝ) - (c : ℝ)) ≤ 1 := by
    rw [Real.exp_le_one_iff]
    have : (s : ℝ) ≤ (c : ℝ) := by exact_mod_cast hs
    linarith
  have h3 : Real.log (1 + Real.exp ((s : ℝ) - (c : ℝ))) ≤ Real.log 2 :=
    Real.log_le_log (by linarith [Real.exp_pos ((s : ℝ) - (c : ℝ))]) (by linarith)
  linarith

/-- A URL counted exactly once gets a weight strictly above `log G`. -/
theorem log_lt_hintWeight_count_one {G : Nat} (s : ℚ) :
    Real.log (G : ℝ) < hintWeight G 1 s := by
  unfold hintWeight
  have h1 : Real.log ((G : ℝ) / ((1 : Nat) : ℝ)) = Real.log (G : ℝ) := by norm_num
  have h2 : 0 < Real.log (1 + Real.exp ((s : ℝ) - ((1 : Nat) : ℝ))) :=
    Real.log_pos (by linarith [Real.exp_pos ((s : ℝ) - ((1 : Nat) : ℝ))])
  rw [h1]
  linarith

/-- The scores and counts produced by folding the two lists
`[x, y, z]` and `[x, z, y]` (for distinct URLs). -/
theorem two_list_scores (x y z : String) (hxy : x ≠ y) (hxz : x ≠ z) (hyz : y ≠ z) :
    totalScore x [[x, y, z], [x, z, y]] = 2/3 ∧
    totalScore y [[x, y, z], [x, z, y]] = 5/18 ∧
    totalScore z [[x, y, z], [x, z, y]] = 5/18 ∧
    totalCount x [[x, y, z], [x, z, y]] = 2 ∧
    totalCount y [[x, y, z], [x, z, y]] = 2 ∧
    totalCount z [[x, y, z], [x, z, y]] = 2 := by
  refine ⟨?_, ?_, ?_, ?_, ?_, ?_⟩ <;>
    simp [totalScore, listScore, listScoreAux, totalCount, countIn,
      hxy, hxz, hyz, Ne.symm hxy, Ne.symm hxz, Ne.symm hyz] <;>
    norm_num

/-- **C4 (counterexample)** — merging `[x, y, z]` and `[x, z, y]` does *not*
give `x` the smallest final weight: all three URLs have count 2, the weight is
strictly increasing in the accumulated score, and `x` has the largest score
(`2/3` against `5/18`), hence the largest — worst — weight. -/
theorem mergeHints_top_rank_cex :
    ¬ (hintWeight 2 (totalCount "x" [["x", "y", "z"], ["x", "z", "y"]])
          (totalScore "x" [["x", "y", "z"], ["x", "z", "y"]]) ≤
        hintWeight 2 (totalCount "y" [["x", "y", "z"], ["x", "z", "y"]])
          (totalScore "y" [["x", "y", "z"], ["x", "z", "y"]])) := by
  obtain ⟨hsx, hsy, _, hcx, hcy, _⟩ :=
    two_list_scores "x" "y" "z" (by decide) (by decide) (by decide)
  rw [hsx, hsy, hcx, hcy]
  exact not_le.2 (hintWeight_strictMono_score (by norm_num))

/-- **C4 (amended)** — for any three distinct URLs, merging `[x, y, z]` and
`[x, z, y]` ranks `x` *last*, not first: `x` receives a strictly larger
(worse) final weight than `y` and than `z`, which tie. -/
theorem mergeHints_top_rank_amended (x y z : String)
    (hxy : x ≠ y) (hxz : x ≠ z) (hyz : y ≠ z) :
    hintWeight 2 (totalCount y [[x, y, z], [x, z, y]])
        (totalScore y [[x, y, z], [x, z, y]]) <
      hintWeight 2 (totalCount x [[x, y, z], [x, z, y]])
        (totalScore x [[x, y, z], [x, z, y]]) ∧
    hintWeight 2 (totalCount z [[x, y, z], [x, z, y]])
        (totalScore z [[x, y, z], [x, z, y]]) <
      hintWeight 2 (totalCount x [[x, y, z], [x, z, y]])
        (totalScore x [[x, y, z], [x, z, y]]) ∧
    hintWeight 2 (totalCount y [[x, y, z], [x, z, y]])
        (totalScore y [[x, y, z], [x, z, y]]) =
      hintWeight 2 (totalCount z [[x, y, z], [x, z, y]])
        (totalScore z [[x, y, z], [x, z, y]]) := by
  obtain ⟨hsx, hsy, hsz, hcx, hcy, hcz⟩ := two_list_scores x y z hxy hxz hyz
  rw [hsx, hsy, hsz, hcx, hcy, hcz]
  exact ⟨hintWeight_strictMono_score (by norm_num),
    hintWeight_strictMono_score (by norm_num), rfl⟩

/-- Witness for the amended C4 at the concrete URLs `"x"`, `"y"`, `"z"`. -/
theorem mergeHints_top_rank_amended_witness :
    (("x" : String) ≠ "y" ∧ ("x" : String) ≠ "z" ∧ ("y" : String) ≠ "z") ∧
    hintWeight 2 (totalCount "y" [["x", "y", "z"], ["x", "z", "y"]])
        (totalScore "y" [["x", "y", "z"], ["x", "z", "y"]]) <
      hintWeight 2 (totalCount "x" [["x", "y", "z"], ["x", "z", "y"]])
        (totalScore "x" [["x", "y", "z"], ["x", "z", "y"]]) :=
  ⟨⟨by decide, by decide, by decide⟩,
    (mergeHints_top_rank_amended "x" "y" "z" (by decide) (by decide) (by decide)).1⟩

/-- **C9 (counterexample)** — with a single input list `["a", "b"]`, the URL
`a` is present in *every* list at top rank and `b` is present in only one
list, yet `a`'s weight is strictly *larger* than `b`'s (both have count 1 and
the weight is increasing in the score), falsifying the claim for one-list
collections. -/
theorem mergeHints_consensus_cex :
    ¬ (hintWeight 1 (totalCount "a" [["a", "b"]]) (totalScore "a" [["a", "b"]]) <
        hintWeight 1 (totalCount "b" [["a", "b"]]) (totalScore "b" [["a", "b"]])) := by
  have hab : ("b" : String) ≠ "a" := by decide
  have hba : ("a" : String) ≠ "b" := by decide
  have hsa : totalScore "a" [["a", "b"]] = 1/2 := by
    norm_num [totalScore, listScore, listScoreAux, hab]
  have hsb : totalScore "b" [["a", "b"]] = 1/4 := by
    norm_num [totalScore, listScore, listScoreAux, hba]
  have hca : totalCount "a" [["a", "b"]] = 1 := by decide
  have hcb : totalCount "b" [["a", "b"]] = 1 := by decide
  rw [hsa, hsb, hca, hcb]
  exact not_lt.2 (le_of_lt (hintWeight_strictMono_score (by norm_num)))

/-- **C9 (amended)** — for a collection of *at least two* candidate lists, a
URL `A` heading every list receives a strictly smaller (better) final weight
than a URL `B` occurring exactly once in the whole collection: `A`'s weight is
at most `log 2` (count ≥ number of lists, score ≤ count) while `B`'s exceeds
`log G ≥ log 2`. -/
theorem mergeHints_consensus (groups : List (List String)) (A B : String)
    (hG : 2 ≤ groups.length)
    (hA : ∀ l ∈ groups, l.head? = some A)
    (hB : totalCount B groups = 1) :
    hintWeight groups.length (totalCount A groups) (totalScore A groups) <
      hintWeight groups.length (totalCount B groups) (totalScore B groups) := by
  have hcA : groups.length ≤ totalCount A groups := by
    apply length_le_totalCount
    intro l hl
    cases l with
    | nil => simpa using hA [] hl
    | cons a t =>
      have h := hA (a :: t) hl
      simp only [List.head?_cons, Option.some.injEq] at h
      subst h
      simp [countIn]
  have hwA : hintWeight groups.length (totalCount A groups) (totalScore A groups) ≤
      Real.log 2 :=
    hintWeight_le_log_two (by omega) hcA (totalScore_le A groups)
  have h2G : Real.log 2 ≤ Real.log (groups.length : ℝ) :=
    Real.log_le_log (by norm_num) (by exact_mod_cast hG)
  have hwB := @log_lt_hintWeight_count_one groups.length (totalScore B groups)
  rw [hB]
  linarith

/-- Witness for the amended C9 on the collection `[["a", "b"], ["a"]]`. -/
theorem mergeHints_consensus_witness :
    (2 ≤ ([["a", "b"], ["a"]] : List (List String)).length ∧
      (∀ l ∈ ([["a", "b"], ["a"]] : List (List String)), l.head? = some "a") ∧
      totalCount "b" [["a", "b"], ["a"]] = 1) ∧
    hintWeight ([["a", "b"], ["a"]] : List (List String)).length
        (totalCount "a" [["a", "b"], ["a"]]) (totalScore "a" [["a", "b"], ["a"]]) <
      hintWeight ([["a", "b"], ["a"]] : List (List String)).length
        (totalCount "b" [["a", "b"], ["a"]]) (totalScore "b" [["a", "b"], ["a"]]) :=
  ⟨⟨by decide, by decide, by decide⟩,
    mergeHints_consensus [["a", "b"], ["a"]] "a" "b" (by decide) (by decide) (by decide)⟩

/-! ## Lemmas about `sortByBool` -/

theorem mem_insertSorted {α : Type} {le : α → α → Bool} {x a : α} :
    ∀ {l : List α}, a ∈ insertSorted le x l ↔ a = x ∨ a ∈ l := by
  intro l
  induction l with
  | nil => simp [insertSorted]
  | cons y ys ih =>
    simp only [insertSorted]
    by_cases h : le x y = true
    · simp only [h, if_true, List.mem_cons]
    · simp [h, List.mem_cons, ih]
      tauto

theorem mem_sortByBool {α : Type} {le : α → α → Bool} {a : α} :
    ∀ {l : List α}, a ∈ sortByBool le l ↔ a ∈ l := by
  intro l
  induction l with
  | nil => simp [sortByBool]
  | cons y ys ih =>
    simp only [sortByBool, mem_insertSorted, List.mem_cons, ih]

theorem insertSorted_pairwise {α : Type} {le : α → α → Bool}
    (htrans : ∀ a b c, le a b = true → le b c = true → le a c = true)
    (htotal : ∀ a b, le a b = true ∨ le b a = true) (x : α) :
    ∀ {l : List α}, List.Pairwise (fun a b => le a b = true) l →
      List.Pairwise (fun a b => le a b = true) (insertSorted le x l) := by
  intro l
  induction l with
  | nil => intro _; simp [insertSorted]
  | cons y ys ih =>
    intro hp
    rcases List.pairwise_cons.1 hp with ⟨hy, hys⟩
    simp only [insertSorted]
    by_cases h : le x y = true
    · simp only [h, if_true]
      refine List.pairwise_cons.2 ⟨?_, hp⟩
      intro b hb
      rcases List.mem_cons.1 hb with hb | hb
      · exact hb ▸ h
      · exact htrans x y b h (hy b hb)
    · rw [if_neg h]
      refine List.pairwise_cons.2 ⟨?_, ih hys⟩
      intro b hb
      rcases mem_insertSorted.1 hb with hb | hb
      · rcases htotal x y with hxy | hyx
        · exact absurd hxy h
        · rw [hb]
          exact hyx
      · exact hy b hb

theorem sortByBool_pairwise {α : Type} {le : α → α → Bool}
    (htrans : ∀ a b c, le a b = true → le b c = true → le a c = true)
    (htotal : ∀ a b, le a b = true ∨ le b a = true) :
    ∀ (l : List α), List.Pairwise (fun a b => le a b = true) (sortByBool le l) := by
  intro l
  induction l with
  | nil => simp [sortByBool]
  | cons y ys ih => exact insertSorted_pairwise htrans htotal y ih

theorem DisplayEvent.event_mk (e : Event) (rs : List DisplayEvent) :
    (DisplayEvent.mk e rs).event = e := rfl

theorem DisplayEvent.replies_mk (e : Event) (rs : List DisplayEvent) :
    (DisplayEvent.mk e rs).replies = rs := rfl

/-! ## Lemmas about the parent map -/

theorem mem_pmSet {k : String} {v : DisplayEvent} :
    ∀ {pm : ParentMap} {kv : String × DisplayEvent},
      kv ∈ pmSet k v pm → kv = (k, v) ∨ kv ∈ pm := by
  intro pm
  induction pm with
  | nil =>
    intro kv h
    simp only [pmSet, List.mem_singleton] at h
    exact Or.inl h
  | cons hd rest ih =>
    intro kv h
    simp only [pmSet] at h
    by_cases hk : hd.1 = k
    · simp only [hk, if_true, List.mem_cons] at h
      rcases h with h | h
      · exact Or.inl h
      · exact Or.inr (List.mem_cons_of_mem _ h)
    · simp only [hk, if_false, List.mem_cons] at h
      rcases h with h | h
      · exact Or.inr (h ▸ List.mem_cons_self _ _)
      · rcases ih h with h | h
        · exact Or.inl h
        · exact Or.inr (List.mem_cons_of_mem _ h)

theorem pmGet_prop {P : DisplayEvent → Prop} :
    ∀ {pm : ParentMap} {k : String} {d : DisplayEvent},
      (∀ kv ∈ pm, P kv.2) → pmGet k pm = some d → P d := by
  intro pm
  induction pm with
  | nil => intro k d _ h; simp [pmGet] at h
  | cons hd rest ih =>
    intro k d hpm h
    simp only [pmGet] at h
    by_cases hk : hd.1 = k
    · simp only [hk, if_true, Option.some.injEq] at h
      exact h ▸ hpm hd (List.mem_cons_self _ _)
    · simp only [hk, if_false] at h
      exact ih (fun kv hkv => hpm kv (List.mem_cons_of_mem _ hkv)) h

/-! ## Preservation of reply-list invariants through the chunk builder -/

/-- `resolveUp` preserves any predicate `P` that is stable under the guarded
push `parent.replies ++ [e]` (kind in `noteKinds`, id not yet present). -/
theorem resolveUp_pres (noteKinds : List Int) (P : DisplayEvent → Prop)
    (hpush : ∀ (pe : Event) (rs : List DisplayEvent) (e : DisplayEvent),
      P (.mk pe rs) → P e → e.event.kind ∈ noteKinds →
      (rs.any (fun r => r.event.id = e.event.id)) = false →
      P (.mk pe (rs ++ [e]))) :
    ∀ (fuel : Nat) (e : DisplayEvent) (pm : ParentMap), P e → (∀ kv ∈ pm, P kv.2) →
      P (resolveUp noteKinds fuel e pm).1 ∧
      (∀ kv ∈ (resolveUp noteKinds fuel e pm).2, P kv.2) := by
  intro fuel
  induction fuel with
  | zero =>
    intro e pm he hpm
    exact ⟨he, hpm⟩
  | succ n ih =>
    intro e pm he hpm
    cases hr : e.event.replyTo with
    | none =>
      simp only [resolveUp, hr]
      exact ⟨he, hpm⟩
    | some pid =>
      cases hg : pmGet pid pm with
      | none =>
        simp only [resolveUp, hr, hg]
        exact ⟨he, hpm⟩
      | some parent =>
        simp only [resolveUp, hr, hg]
        have hparent : P parent := pmGet_prop hpm hg
        have hpm' : ∀ (p' : DisplayEvent), P p' → ∀ kv ∈ pmSet pid p' pm, P kv.2 := by
          intro p' hp' kv hkv
          rcases mem_pmSet hkv with h | h
          · rw [h]; exact hp'
          · exact hpm kv h
        by_cases hgd : e.event.kind ∈ noteKinds ∧
            ¬ parent.replies.any (fun r => r.event.id = e.event.id) = true
        · rw [if_pos hgd]
          have hpushed : P (.mk parent.event (parent.replies ++ [e])) := by
            cases parent with
            | mk pe rs =>
              exact hpush pe rs e hparent he hgd.1 (by simpa using hgd.2)
          exact ih _ _ hpushed (hpm' _ hpushed)
        · rw [if_neg hgd]
          exact ih _ _ hparent (hpm' _ hparent)

/-- `walkAll` preserves such predicates, starting from raw events with empty
reply lists. -/
theorem walkAll_pres (noteKinds : List Int) (P : DisplayEvent → Prop)
    (hpush : ∀ (pe : Event) (rs : List DisplayEvent) (e : DisplayEvent),
      P (.mk pe rs) → P e → e.event.kind ∈ noteKinds →
      (rs.any (fun r => r.event.id = e.event.id)) = false →
      P (.mk pe (rs ++ [e])))
    (hbase : ∀ e : Event, P (.mk e [])) (fuel : Nat) :
    ∀ (events : List Event) (pm : ParentMap), (∀ kv ∈ pm, P kv.2) →
      (∀ d ∈ (walkAll noteKinds fuel events pm).1, P d) ∧
      (∀ kv ∈ (walkAll noteKinds fuel events pm).2, P kv.2) := by
  intro events
  induction events with
  | nil =>
    intro pm hpm
    exact ⟨by simp [walkAll], by simpa [walkAll] using hpm⟩
  | cons e rest ih =>
    intro pm hpm
    have h1 := resolveUp_pres noteKinds P hpush fuel (.mk e []) pm (hbase e) hpm
    have h2 := ih (resolveUp noteKinds fuel (.mk e []) pm).2 h1.2
    simp only [walkAll]
    refine ⟨?_, h2.2⟩
    intro d hd
    rcases List.mem_cons.1 hd with hd | hd
    · exact hd ▸ h1.1
    · exact h2.1 d hd

/-- `buildFeedChunk` preserves such predicates — on the emitted chunk (whose
elements additionally go through the per-element replies dedup) and on the
updated parent map. -/
theorem buildFeedChunk_pres (opts : FeedOpts) (fuel : Nat) (ids : List String)
    (pm : ParentMap) (incoming : List Event) (P : DisplayEvent → Prop)
    (hpush : ∀ (pe : Event) (rs : List DisplayEvent) (e : DisplayEvent),
      P (.mk pe rs) → P e → e.event.kind ∈ opts.noteKinds →
      (rs.any (fun r => r.event.id = e.event.id)) = false →
      P (.mk pe (rs ++ [e])))
    (hbase : ∀ e : Event, P (.mk e []))
    (hdedup : ∀ (ev : Event) (rs : List DisplayEvent),
      P (.mk ev rs) → P (.mk ev (uniqBy (fun r => r.event.id) rs)))
    (hpm : ∀ kv ∈ pm, P kv.2) :
    (∀ d ∈ (buildFeedChunk opts fuel ids pm incoming).1, P d) ∧
    (∀ kv ∈ (buildFeedChunk opts fuel ids pm incoming).2, P kv.2) := by
  have hw := walkAll_pres opts.noteKinds P hpush hbase fuel incoming pm hpm
  unfold buildFeedChunk
  refine ⟨?_, hw.2⟩
  intro d hd
  have hd1 := mem_sortByBool.1 hd
  have hd2 := mem_uniqBy hd1
  rcases List.mem_map.1 hd2 with ⟨e, he, hde⟩
  have he' := (List.mem_filter.1 he).1
  have hPe := hw.1 e he'
  cases e with
  | mk ev rs =>
    exact hde ▸ hdedup ev rs hPe

/-- Every element of the emitted chunk survived the seen/reaction filter. -/
theorem buildFeedChunk_mem_filter (opts : FeedOpts) (fuel : Nat) (ids : List String)
    (pm : ParentMap) (incoming : List Event) :
    ∀ d ∈ (buildFeedChunk opts fuel ids pm incoming).1,
      ids.contains d.event.id = false ∧
      opts.reactionKinds.contains d.event.kind = false := by
  intro d hd
  unfold buildFeedChunk at hd
  have hd1 := mem_sortByBool.1 hd
  have hd2 := mem_uniqBy hd1
  rcases List.mem_map.1 hd2 with ⟨e, he, hde⟩
  have hp := (List.mem_filter.1 he).2
  simp only [Bool.and_eq_true, Bool.not_eq_true'] at hp
  have hev : d.event = e.event := by
    rw [← hde, DisplayEvent.event_mk]
  rw [hev]
  exact ⟨hp.1, hp.2⟩


/-- The emitted chunk is sorted (non-strictly) descending by `created_at`. -/
theorem buildFeedChunk_sorted (opts : FeedOpts) (fuel : Nat) (ids : List String)
    (pm : ParentMap) (incoming : List Event) :
    List.Pairwise (fun a b : DisplayEvent => b.event.created_at ≤ a.event.created_at)
      (buildFeedChunk opts fuel ids pm incoming).1 := by
  have h := @sortByBool_pairwise DisplayEvent
    (fun a b : DisplayEvent => decide (b.event.created_at ≤ a.event.created_at))
    (fun a b c hab hbc => by
      simp only [decide_eq_true_eq] at *
      exact le_trans hbc hab)
    (fun a b => by
      simp only [decide_eq_true_eq]
      exact le_total b.event.created_at a.event.created_at)
    (uniqBy (fun d => d.event.id)
      (((walkAll opts.noteKinds fuel incoming pm).1.filter (fun e =>
          !(ids.contains e.event.id) && !(opts.reactionKinds.contains e.event.kind))).map
        (fun e => DisplayEvent.mk e.event (uniqBy (fun r => r.event.id) e.replies))))
  exact h.imp (fun hab => by simpa using hab)

/-! ## Preservation through `addToFeed`, `step` and `runOps` -/

theorem addToFeed_pres (opts : FeedOpts) (fuel : Nat) (st : FeedState) (events : List Event)
    (P : DisplayEvent → Prop)
    (hpush : ∀ (pe : Event) (rs : List DisplayEvent) (e : DisplayEvent),
      P (.mk pe rs) → P e → e.event.kind ∈ opts.noteKinds →
      (rs.any (fun r => r.event.id = e.event.id)) = false →
      P (.mk pe (rs ++ [e])))
    (hbase : ∀ e : Event, P (.mk e []))
    (hdedup : ∀ (ev : Event) (rs : List DisplayEvent),
      P (.mk ev rs) → P (.mk ev (uniqBy (fun r => r.event.id) rs)))
    (hnotes : ∀ d ∈ st.notes, P d) (hpm : ∀ kv ∈ st.parents, P kv.2) :
    (∀ d ∈ (addToFeed opts fuel st events).notes, P d) ∧
    (∀ kv ∈ (addToFeed opts fuel st events).parents, P kv.2) := by
  have hc := buildFeedChunk_pres opts fuel (st.notes.map (fun d => d.event.id)) st.parents
    events P hpush hbase hdedup hpm
  constructor
  · intro d hd
    have hd' := mem_uniqBy hd
    rcases List.mem_append.1 hd' with h | h
    · exact hnotes d h
    · exact hc.1 d h
  · exact hc.2

theorem step_pres (opts : FeedOpts) (fuel : Nat) (P : DisplayEvent → Prop)
    (hpush : ∀ (pe : Event) (rs : List DisplayEvent) (e : DisplayEvent),
      P (.mk pe rs) → P e → e.event.kind ∈ opts.noteKinds →
      (rs.any (fun r => r.event.id = e.event.id)) = false →
      P (.mk pe (rs ++ [e])))
    (hbase : ∀ e : Event, P (.mk e []))
    (hdedup : ∀ (ev : Event) (rs : List DisplayEvent),
      P (.mk ev rs) → P (.mk ev (uniqBy (fun r => r.event.id) rs)))
    (st : FeedState) (op : FeedOp)
    (hnotes : ∀ d ∈ st.notes, P d) (hpm : ∀ kv ∈ st.parents, P kv.2) :
    (∀ d ∈ (step opts fuel st op).notes, P d) ∧
    (∀ kv ∈ (step opts fuel st op).parents, P kv.2) := by
  cases op with
  | cursorArrive events => exact ⟨hnotes, hpm⟩
  | liveBatch events =>
    simp only [step, liveBatchStep]
    by_cases h : opts.shouldListen = true
    · rw [if_pos h]
      exact ⟨hnotes, hpm⟩
    · rw [if_neg h]
      exact ⟨hnotes, hpm⟩
  | parentBatch events =>
    refine ⟨hnotes, ?_⟩
    show ∀ kv ∈ (discardEvents opts events).foldl
      (fun pm e => pmSet e.id (.mk e []) pm) st.parents, P kv.2
    generalize discardEvents opts events = es
    induction es generalizing st with
    | nil => exact hpm
    | cons e rest ih =>
      simp only [List.foldl_cons]
      have hset : ∀ kv ∈ pmSet e.id (.mk e []) st.parents, P kv.2 := by
        intro kv hkv
        rcases mem_pmSet hkv with h | h
        · rw [h]
          exact hbase e
        · exact hpm kv h
      exact ih { st with parents := pmSet e.id (.mk e []) st.parents } hnotes hset
  | load time n =>
    simp only [step, loadStep]
    by_cases hd : opts.shouldDefer = true
    · rw [if_pos hd]
      by_cases hp : opts.shouldLoadParents = true
      · rw [if_pos hp]
        exact addToFeed_pres opts fuel _ _ P hpush hbase hdedup hnotes hpm
      · rw [if_neg hp]
        exact addToFeed_pres opts fuel _ _ P hpush hbase hdedup hnotes hpm
    · rw [if_neg hd]
      exact addToFeed_pres opts fuel _ _ P hpush hbase hdedup hnotes hpm
  | loadBuffer =>
    exact addToFeed_pres opts fuel _ _ P hpush hbase hdedup hnotes hpm
  | fireTimer i =>
    simp only [step, fireTimerStep]
    cases h : st.timers[i]? with
    | none => exact ⟨hnotes, hpm⟩
    | some payload =>
      exact addToFeed_pres opts fuel _ _ P hpush hbase hdedup hnotes hpm
  | stop => exact ⟨hnotes, hpm⟩

theorem foldl_step_inv (opts : FeedOpts) (fuel : Nat) (Q : FeedState → Prop)
    (hstep : ∀ st op, Q st → Q (step opts fuel st op)) :
    ∀ (ops : List FeedOp) (st : FeedState), Q st → Q (ops.foldl (step opts fuel) st) := by
  intro ops
  induction ops with
  | nil => intro st h; exact h
  | cons op rest ih =>
    intro st h
    exact ih _ (hstep st op h)

theorem runOps_pres (opts : FeedOpts) (fuel : Nat) (P : DisplayEvent → Prop)
    (hpush : ∀ (pe : Event) (rs : List DisplayEvent) (e : DisplayEvent),
      P (.mk pe rs) → P e → e.event.kind ∈ opts.noteKinds →
      (rs.any (fun r => r.event.id = e.event.id)) = false →
      P (.mk pe (rs ++ [e])))
    (hbase : ∀ e : Event, P (.mk e []))
    (hdedup : ∀ (ev : Event) (rs : List DisplayEvent),
      P (.mk ev rs) → P (.mk ev (uniqBy (fun r => r.event.id) rs)))
    (ops : List FeedOp) :
    (∀ d ∈ (runOps opts fuel ops).notes, P d) ∧
    (∀ kv ∈ (runOps opts fuel ops).parents, P kv.2) := by
  exact foldl_step_inv opts fuel
    (fun st => (∀ d ∈ st.notes, P d) ∧ (∀ kv ∈ st.parents, P kv.2))
    (fun st op h => step_pres opts fuel P hpush hbase hdedup st op h.1 h.2)
    ops initState ⟨by simp [initState], by simp [initState]⟩

/-- After any addToFeed the visible ids are deduplicated. -/
theorem addToFeed_nodup (opts : FeedOpts) (fuel : Nat) (st : FeedState) (events : List Event) :
    ((addToFeed opts fuel st events).notes.map (fun d => d.event.id)).Nodup :=
  uniqBy_nodup

theorem step_nodup (opts : FeedOpts) (fuel : Nat) (st : FeedState) (op : FeedOp)
    (h : (st.notes.map (fun d => d.event.id)).Nodup) :
    ((step opts fuel st op).notes.map (fun d => d.event.id)).Nodup := by
  cases op with
  | cursorArrive events => exact h
  | liveBatch events =>
    simp only [step, liveBatchStep]
    by_cases hl : opts.shouldListen = true
    · rw [if_pos hl]; exact h
    · rw [if_neg hl]; exact h
  | parentBatch events => exact h
  | load time n =>
    simp only [step, loadStep]
    by_cases hd : opts.shouldDefer = true
    · rw [if_pos hd]
      by_cases hp : opts.shouldLoadParents = true
      · rw [if_pos hp]; exact addToFeed_nodup opts fuel _ _
      · rw [if_neg hp]; exact addToFeed_nodup opts fuel _ _
    · rw [if_neg hd]; exact addToFeed_nodup opts fuel _ _
  | loadBuffer => exact addToFeed_nodup opts fuel _ _
  | fireTimer i =>
    simp only [step, fireTimerStep]
    cases ht : st.timers[i]? with
    | none => exact h
    | some payload => exact addToFeed_nodup opts fuel _ _
  | stop => exact h

theorem addToFeed_no_react (opts : FeedOpts) (fuel : Nat) (st : FeedState)
    (events : List Event)
    (h : ∀ d ∈ st.notes, opts.reactionKinds.contains d.event.kind = false) :
    ∀ d ∈ (addToFeed opts fuel st events).notes,
      opts.reactionKinds.contains d.event.kind = false := by
  intro d hd
  have hd' := mem_uniqBy hd
  rcases List.mem_append.1 hd' with hm | hm
  · exact h d hm
  · exact (buildFeedChunk_mem_filter opts fuel _ _ _ d hm).2

theorem step_no_react (opts : FeedOpts) (fuel : Nat) (st : FeedState) (op : FeedOp)
    (h : ∀ d ∈ st.notes, opts.reactionKinds.contains d.event.kind = false) :
    ∀ d ∈ (step opts fuel st op).notes,
      opts.reactionKinds.contains d.event.kind = false := by
  cases op with
  | cursorArrive events => exact h
  | liveBatch events =>
    simp only [step, liveBatchStep]
    by_cases hl : opts.shouldListen = true
    · rw [if_pos hl]; exact h
    · rw [if_neg hl]; exact h
  | parentBatch events => exact h
  | load time n =>
    simp only [step, loadStep]
    by_cases hd : opts.shouldDefer = true
    · rw [if_pos hd]
      by_cases hp : opts.shouldLoadParents = true
      · rw [if_pos hp]; exact addToFeed_no_react opts fuel _ _ h
      · rw [if_neg hp]; exact addToFeed_no_react opts fuel _ _ h
    · rw [if_neg hd]; exact addToFeed_no_react opts fuel _ _ h
  | loadBuffer => exact addToFeed_no_react opts fuel _ _ h
  | fireTimer i =>
    simp only [step, fireTimerStep]
    cases ht : st.timers[i]? with
    | none => exact h
    | some payload => exact addToFeed_no_react opts fuel _ _ h
  | stop => exact h

/-! ## Instances of the preserved predicates -/

theorem RepliesUniq.nodup_ids {e : Event} {rs : List DisplayEvent}
    (h : RepliesUniq (.mk e rs)) : (rs.map (fun r => r.event.id)).Nodup := by
  cases h with
  | mk h1 _ => exact h1

theorem repliesUniq_of_mem {e : Event} {rs : List DisplayEvent}
    (h : RepliesUniq (.mk e rs)) : ∀ r ∈ rs, RepliesUniq r := by
  cases h with
  | mk _ h2 => exact h2

theorem repliesUniq_push (pe : Event) (rs : List DisplayEvent) (e : DisplayEvent)
    (hp : RepliesUniq (.mk pe rs)) (he : RepliesUniq e)
    (hany : (rs.any (fun r => r.event.id = e.event.id)) = false) :
    RepliesUniq (.mk pe (rs ++ [e])) := by
  refine RepliesUniq.mk ?_ ?_
  · rw [List.map_append]
    rw [List.nodup_append]
    refine ⟨hp.nodup_ids, by simp, ?_⟩
    simp only [List.map_cons, List.map_nil, List.disjoint_singleton]
    intro hmem
    rcases List.mem_map.1 hmem with ⟨r, hr, hrid⟩
    have := List.any_eq_false.1 hany r hr
    simp only [decide_eq_true_eq] at this
    exact this hrid
  · intro r hr
    rcases List.mem_append.1 hr with h | h
    · exact repliesUniq_of_mem hp r h
    · simp only [List.mem_singleton] at h
      exact h ▸ he

theorem repliesUniq_base (e : Event) : RepliesUniq (.mk e []) :=
  RepliesUniq.mk (by simp) (by simp)

theorem repliesUniq_dedup (ev : Event) (rs : List DisplayEvent)
    (h : RepliesUniq (.mk ev rs)) :
    RepliesUniq (.mk ev (uniqBy (fun r => r.event.id) rs)) := by
  refine RepliesUniq.mk uniqBy_nodup ?_
  intro r hr
  exact repliesUniq_of_mem h r (mem_uniqBy hr)

theorem RepliesNoted.mem_kinds {nk : List Int} {e : Event} {rs : List DisplayEvent}
    (h : RepliesNoted nk (.mk e rs)) : ∀ r ∈ rs, r.event.kind ∈ nk := by
  cases h with
  | mk h1 _ => exact h1

theorem repliesNoted_of_mem {nk : List Int} {e : Event} {rs : List DisplayEvent}
    (h : RepliesNoted nk (.mk e rs)) : ∀ r ∈ rs, RepliesNoted nk r := by
  cases h with
  | mk _ h2 => exact h2

theorem repliesNoted_push (nk : List Int) (pe : Event) (rs : List DisplayEvent)
    (e : DisplayEvent) (hp : RepliesNoted nk (.mk pe rs)) (he : RepliesNoted nk e)
    (hk : e.event.kind ∈ nk) :
    RepliesNoted nk (.mk pe (rs ++ [e])) := by
  refine RepliesNoted.mk ?_ ?_
  · intro r hr
    rcases List.mem_append.1 hr with h | h
    · exact hp.mem_kinds r h
    · simp only [List.mem_singleton] at h
      exact h ▸ hk
  · intro r hr
    rcases List.mem_append.1 hr with h | h
    · exact repliesNoted_of_mem hp r h
    · simp only [List.mem_singleton] at h
      exact h ▸ he

theorem repliesNoted_base (nk : List Int) (e : Event) : RepliesNoted nk (.mk e []) :=
  RepliesNoted.mk (by simp) (by simp)

theorem repliesNoted_dedup (nk : List Int) (ev : Event) (rs : List DisplayEvent)
    (h : RepliesNoted nk (.mk ev rs)) :
    RepliesNoted nk (.mk ev (uniqBy (fun r => r.event.id) rs)) := by
  refine RepliesNoted.mk ?_ ?_
  · intro r hr
    exact h.mem_kinds r (mem_uniqBy hr)
  · intro r hr
    exact repliesNoted_of_mem h r (mem_uniqBy hr)

/-- A walk starting at an event whose parent id is not locally resolved
leaves the event and the map untouched, for every fuel value. -/
theorem resolveUp_orphan (nk : List Int) (fuel : Nat) (d : DisplayEvent) (pm : ParentMap)
    (pid : String) (h1 : d.event.replyTo = some pid) (h2 : pmGet pid pm = none) :
    resolveUp nk fuel d pm = (d, pm) := by
  cases fuel with
  | zero => rfl
  | succ n => simp only [resolveUp, h1, h2]

/-! ## Claim theorems for the feed machine -/

/-- **C1 (counterexample)** — the top-level feed is *not* kept sorted
descending across mutations: each committed chunk is sorted internally, but
`addToFeed` appends it to the existing feed without re-sorting, so loading an
event with `created_at = 10` and then one with `created_at = 20` leaves the
feed in ascending order `[10, 20]`. -/
theorem feed_sorted_cex :
    ¬ List.Pairwise (fun a b : Int => a > b)
      ((runOps optsPlain 5
          [.cursorArrive [evEarly], .load 1000 1,
           .cursorArrive [evLate], .load 1000 1]).notes.map
        (fun d => d.event.created_at)) := by
  decide

/-- **C1 (amended)** — after every sequence of operations: the top-level feed
has no duplicate ids; no reaction-kind event is a top-level entry; no id
appears twice in any reply list (in the feed or the parent map); and every
*chunk* committed by `buildFeedChunk` is sorted non-strictly descending by
`created_at` (the concatenated feed itself is only sorted per chunk). -/
theorem feed_invariants (opts : FeedOpts) (fuel : Nat) (ops : List FeedOp) :
    ((runOps opts fuel ops).notes.map (fun d => d.event.id)).Nodup ∧
    (∀ d ∈ (runOps opts fuel ops).notes,
      opts.reactionKinds.contains d.event.kind = false) ∧
    (∀ d ∈ (runOps opts fuel ops).notes, RepliesUniq d) ∧
    (∀ kv ∈ (runOps opts fuel ops).parents, RepliesUniq kv.2) ∧
    (∀ (ids : List String) (pm : ParentMap) (incoming : List Event),
      List.Pairwise (fun a b : DisplayEvent => b.event.created_at ≤ a.event.created_at)
        (buildFeedChunk opts fuel ids pm incoming).1) := by
  have hu := runOps_pres opts fuel RepliesUniq
    (fun pe rs e hp he _ hany => repliesUniq_push pe rs e hp he hany)
    repliesUniq_base repliesUniq_dedup ops
  have hnd := foldl_step_inv opts fuel
    (fun st => (st.notes.map (fun d => d.event.id)).Nodup)
    (fun st op h => step_nodup opts fuel st op h) ops initState (by simp [initState])
  have hnr := foldl_step_inv opts fuel
    (fun st => ∀ d ∈ st.notes, opts.reactionKinds.contains d.event.kind = false)
    (fun st op h => step_no_react opts fuel st op h) ops initState (by simp [initState])
  exact ⟨hnd, hnr, hu.1, hu.2,
    fun ids pm incoming => buildFeedChunk_sorted opts fuel ids pm incoming⟩

/-- **C10** — an event enters a resolved ancestor's replies only when its
kind is a note kind: in every reachable state, every event stored in any
reply list (of a feed entry or of a parent-map entry, at any depth) has a
kind in `noteKinds`. -/
theorem replies_only_note_kinds (opts : FeedOpts) (fuel : Nat) (ops : List FeedOp) :
    (∀ d ∈ (runOps opts fuel ops).notes, RepliesNoted opts.noteKinds d) ∧
    (∀ kv ∈ (runOps opts fuel ops).parents, RepliesNoted opts.noteKinds kv.2) :=
  runOps_pres opts fuel (RepliesNoted opts.noteKinds)
    (fun pe rs e hp he hk _ => repliesNoted_push opts.noteKinds pe rs e hp he hk)
    (repliesNoted_base opts.noteKinds) (repliesNoted_dedup opts.noteKinds) ops

/-- **C2 (code bug)** — `stop()` sets the `stopped` flag, but the flag is
never read: both `loadBuffer()` and `load(n)` called after `stop()` still
commit events to the feed (the feed changes from `[]` to a one-element
list). -/
theorem load_after_stop_mutates :
    (runOps optsPlain 5 [.liveBatch [evEarly], .stop]).stopped = true ∧
    (runOps optsPlain 5 [.liveBatch [evEarly], .stop]).notes = [] ∧
    (runOps optsPlain 5 [.liveBatch [evEarly], .stop, .loadBuffer]).notes.map
      (fun d => d.event.id) = ["early"] ∧
    (runOps optsPlain 5 [.cursorArrive [evEarly], .stop]).notes = [] ∧
    (runOps optsPlain 5 [.cursorArrive [evEarly], .stop, .load 1000 1]).notes.map
      (fun d => d.event.id) = ["early"] := by
  refine ⟨rfl, rfl, ?_, rfl, ?_⟩ <;> decide

/-- **C3 (code bug)** — a deferral timer scheduled by the orphan pass and
fired after `stop()` still mutates the feed: the timer callback
(`setTimeout(() => this.addToFeed(defer), …)`) performs no stopped check. -/
theorem timer_after_stop_mutates :
    (runOps optsDefer 5 [.cursorArrive [evOrphan], .load 1000 1, .stop]).stopped = true ∧
    (runOps optsDefer 5 [.cursorArrive [evOrphan], .load 1000 1, .stop]).notes = [] ∧
    (runOps optsDefer 5 [.cursorArrive [evOrphan], .load 1000 1, .stop]).timers =
      [[evOrphan], []] ∧
    (runOps optsDefer 5
        [.cursorArrive [evOrphan], .load 1000 1, .stop, .fireTimer 0]).notes.map
      (fun d => d.event.id) = ["orphan"] := by
  refine ⟨rfl, rfl, ?_, ?_⟩ <;> decide

/-- **C5 (counterexample)** — a deferred orphan is *not* re-run through the
deferral passes when its delay elapses: after `load` defers it, firing the
timer commits it to the feed even though its parent is still unresolved, and
no new deferral timer is scheduled (re-entering the orphan pass would have
re-deferred it). -/
theorem defer_reentry_cex :
    (runOps optsDefer 5 [.cursorArrive [evOrphan], .load 1000 1]).notes = [] ∧
    (runOps optsDefer 5 [.cursorArrive [evOrphan], .load 1000 1]).timers =
      [[evOrphan], []] ∧
    (runOps optsDefer 5
        [.cursorArrive [evOrphan], .load 1000 1, .fireTimer 0]).notes.map
      (fun d => d.event.id) = ["orphan"] ∧
    pmGet "missing"
      (runOps optsDefer 5 [.cursorArrive [evOrphan], .load 1000 1, .fireTimer 0]).parents =
      none ∧
    (runOps optsDefer 5 [.cursorArrive [evOrphan], .load 1000 1, .fireTimer 0]).timers =
      [[]] := by
  refine ⟨rfl, ?_, ?_, rfl, ?_⟩ <;> decide

/-- **C5 (amended)** — when a deferral timer fires, its payload goes through
`addToFeed` directly: a still-orphaned event is appended to the feed as-is,
the parent map, buffer and deferred accumulator are untouched, and the only
timer change is the removal of the fired one (no re-entry into the deferral
passes, which would re-defer the orphan and schedule new timers). -/
theorem fireTimer_commits_directly (opts : FeedOpts) (fuel : Nat) (st : FeedState)
    (i : Nat) (e : Event) (pid : String)
    (hpl : st.timers[i]? = some [e])
    (horph : e.replyTo = some pid)
    (hpm : pmGet pid st.parents = none)
    (hnd : (st.notes.map (fun d => d.event.id)).Nodup)
    (hseen : (st.notes.map (fun d => d.event.id)).contains e.id = false)
    (hreact : opts.reactionKinds.contains e.kind = false) :
    (fireTimerStep opts fuel i st).notes = st.notes ++ [DisplayEvent.mk e []] ∧
    (fireTimerStep opts fuel i st).parents = st.parents ∧
    (fireTimerStep opts fuel i st).timers = st.timers.eraseIdx i ∧
    (fireTimerStep opts fuel i st).deferred = st.deferred ∧
    (fireTimerStep opts fuel i st).buffer = st.buffer := by
  have hro := resolveUp_orphan opts.noteKinds fuel (DisplayEvent.mk e []) st.parents pid
    (by simpa using horph) hpm
  have hwalk : walkAll opts.noteKinds fuel [e] st.parents =
      ([DisplayEvent.mk e []], st.parents) := by
    simp [walkAll, hro]
  have hchunk : buildFeedChunk opts fuel (st.notes.map (fun d => d.event.id))
      st.parents [e] = ([DisplayEvent.mk e []], st.parents) := by
    unfold buildFeedChunk
    rw [hwalk]
    simp only [List.filter_cons, List.filter_nil, DisplayEvent.event_mk,
      DisplayEvent.replies_mk, hseen, hreact, Bool.not_false, Bool.and_self, if_true,
      List.map_cons, List.map_nil]
    simp [uniqBy, uniqByAux, sortByBool, insertSorted]
  have hnodup : ((st.notes ++ [DisplayEvent.mk e []]).map (fun d => d.event.id)).Nodup := by
    rw [List.map_append, List.nodup_append]
    refine ⟨hnd, by simp, ?_⟩
    have hseen' : e.id ∉ st.notes.map (fun d => d.event.id) := by simpa using hseen
    simpa [List.disjoint_singleton] using hseen'
  simp only [fireTimerStep, hpl, addToFeed, hchunk]
  refine ⟨?_, trivial, trivial, trivial, trivial⟩
  exact uniqBy_eq_self hnodup

/-- Witness for the amended C5, on the state reached by deferring one
orphan. -/
theorem fireTimer_commits_directly_witness :
    ((runOps optsDefer 5 [.cursorArrive [evOrphan], .load 1000 1]).timers[0]? =
        some [evOrphan] ∧
      evOrphan.replyTo = some "missing" ∧
      pmGet "missing" (runOps optsDefer 5
        [.cursorArrive [evOrphan], .load 1000 1]).parents = none ∧
      ((runOps optsDefer 5 [.cursorArrive [evOrphan], .load 1000 1]).notes.map
        (fun d => d.event.id)).Nodup ∧
      evOrphan.id ∉ (runOps optsDefer 5
        [.cursorArrive [evOrphan], .load 1000 1]).notes.map (fun d => d.event.id) ∧
      evOrphan.kind ∉ optsDefer.reactionKinds) ∧
    (fireTimerStep optsDefer 5 0
        (runOps optsDefer 5 [.cursorArrive [evOrphan], .load 1000 1])).notes =
      (runOps optsDefer 5 [.cursorArrive [evOrphan], .load 1000 1]).notes ++
        [DisplayEvent.mk evOrphan []] :=
  ⟨⟨by decide, rfl, rfl, by decide, by decide, by decide⟩,
    (fireTimer_commits_directly optsDefer 5
      (runOps optsDefer 5 [.cursorArrive [evOrphan], .load 1000 1]) 0 evOrphan "missing"
      (by decide) rfl rfl (by decide) (by decide) (by decide)).1⟩

end Coracle
